import Mathlib

/-!
Verification development for the board-representation and move-generation core
of a shogi engine (source files: `src/board.rs`, `src/types/bitboard.rs`).

The data model and the operations are shallowly embedded:

* a `Bitboard` (Rust `u128` newtype) is a `Nat`; every operation that can
  overflow 128 bits takes the result `% 2^128`, matching Rust `u128` wrapping
  shift semantics, and the `Not` implementation is the raw 128-bit complement
  exactly as in `impl Not for Bitboard`;
* `Position` stores the two side bitboards, the fourteen per-category
  bitboards, the 81-entry mailbox and the two hands as lists, mirroring the
  fixed-size Rust arrays, with `List.set` / `List.getD` for indexing;
* `Board.load_fen` and `Board.get_actions` are translated statement by
  statement from `src/board.rs`.  Rust panics inside `load_fen` are modelled
  by an error result that carries the board state as already mutated at the
  panic point (what a caller catching the unwind would observe).

The repository's `src/` excerpt contains only `board.rs` and
`types/bitboard.rs`; the modules `movegen`, `types/piece.rs`,
`types/square.rs`, `types/hand.rs` and `types/action.rs` are referenced but
absent.  Definitions for those parts are modelled from the specification and
are each marked `Modelled from the spec:` in their doc comment.
-/

namespace Shogi

/-! ## List index helpers -/

theorem getD_set_self {α : Type} (l : List α) (i : Nat) (v d : α) (h : i < l.length) :
    (l.set i v).getD i d = v := by
  induction l generalizing i with
  | nil => simp at h
  | cons a as ih =>
    cases i with
    | zero => rfl
    | succ j =>
      simp only [List.set, List.getD, List.getElem?_cons_succ]
      have hj : j < as.length := by simpa using h
      simpa [List.getD] using ih j hj

theorem getD_set_self_ge {α : Type} (l : List α) (i : Nat) (v d : α) (h : l.length ≤ i) :
    (l.set i v).getD i d = d := by
  have hset : l.set i v = l := by
    apply List.set_eq_of_length_le h
  rw [hset]
  have : l.length ≤ i := h
  simp [List.getD, List.getElem?_eq_none this]

theorem getD_set_ne {α : Type} (l : List α) (i j : Nat) (v d : α) (h : i ≠ j) :
    (l.set i v).getD j d = l.getD j d := by
  induction l generalizing i j with
  | nil => simp [List.set]
  | cons a as ih =>
    cases i with
    | zero =>
      cases j with
      | zero => exact absurd rfl h
      | succ k => rfl
    | succ i' =>
      cases j with
      | zero => rfl
      | succ k =>
        simp only [List.set, List.getD, List.getElem?_cons_succ]
        have : i' ≠ k := fun hc => h (by rw [hc])
        simpa [List.getD] using ih i' k this

theorem getLastD_append_single {α : Type} (l : List α) (x d : α) :
    (l ++ [x]).getLastD d = x := by
  simp [List.getLastD_concat]

/-! ## Pieces

Modelled from the spec: `types/piece.rs` is not under `src/`.  The spec (§3,
§9) fixes categories as the eight base types plus promoted variants of all but
gold/king, promoted types encoded as base-type-plus-offset; `board.rs` uses
`Piece::PAWN.raw() + 8 * is_promoted` and `piece.piece() < Piece::GOLD` with
`GOLD`, `PROMO_PAWN` … `PROMO_SILVER` mapping to gold movement, so the raw
category order is pawn 0, lance 1, knight 2, silver 3, bishop 4, rook 5,
gold 6, king 7, then the six promoted types 8–13 (base + 8), and
`NUM_PIECE_TYPES = 14`.  Sides: sente 0, gote 1 (stm 0 prints "sente", the
token `w` selects stm 1).  The distinguished none piece is a value outside the
fourteen categories. -/

structure Piece where
  cat : Nat
  side : Nat
deriving DecidableEq, Repr

def pieceNone : Piece := ⟨14, 0⟩

def catPAWN : Nat := 0
def catLANCE : Nat := 1
def catKNIGHT : Nat := 2
def catSILVER : Nat := 3
def catBISHOP : Nat := 4
def catROOK : Nat := 5
def catGOLD : Nat := 6
def catKING : Nat := 7

/-- Modelled from the spec: `piece.as_stm(stm)` (used when emitting drop
actions in `get_actions`) returns the same category with the side replaced by
the side to move. -/
def Piece.as_stm (p : Piece) (stm : Nat) : Piece := ⟨p.cat, stm⟩

/-! ## Hands

Modelled from the spec: `types/hand.rs` is not under `src/`.  §3 specifies a
per-side mapping from category to a held count supporting query, overwrite and
iteration over held categories.  A hand is a list of eight counts indexed by
base category (`load_fen` stores entries for every base category letter it
accepts, including `k`/`K`, so the model keeps a king slot). -/

abbrev Hand : Type := List Nat

def emptyHand : Hand := List.replicate 8 0

/-- Modelled from the spec: `Hand::set(piece, count)` overwrites the count
stored for the piece's base category. -/
def handSet (h : Hand) (cat : Nat) (count : Nat) : Hand := h.set cat count

/-- Modelled from the spec: iterating a hand (`for (piece, _count) in hand`)
yields each droppable category (all base types except king, §3) whose stored
count is nonzero, with its count.  The iteration order (ascending category) is
fixed by the model; no claim depends on it. -/
def handHeld (h : Hand) : List (Nat × Nat) :=
  (List.range 7).filterMap fun c =>
    if h.getD c 0 ≠ 0 then some (c, h.getD c 0) else none

/-! ## Bitboards (`src/types/bitboard.rs`)

A bitboard is a `u128`, embedded as a `Nat`; shifts that can carry bits past
bit 127 are reduced `% 2^128` (Rust `u128 <<` discards overflowed bits). -/

def U128 : Nat := 2 ^ 128

/-- `Bitboard::FULL = (1 << 81) - 1`. -/
def bbFULL : Nat := 2 ^ 81 - 1

/-- `Bitboard::from_square(sq) = 1 << sq`. -/
def bbFromSquare (sq : Nat) : Nat := 2 ^ sq

/-- `impl Not for Bitboard`: `!self.0`, the raw 128-bit complement with no
masking to the 81-square domain. -/
def bbNot (b : Nat) : Nat := b ^^^ (U128 - 1)

/-- `impl Shl<u8> for Bitboard`: `self.0 << rhs` with `u128` wrapping. -/
def bbShl (b n : Nat) : Nat := (b <<< n) % U128

/-- `impl Shr<u8> for Bitboard`: `self.0 >> rhs`. -/
def bbShr (b n : Nat) : Nat := b >>> n

/-- `Bitboard::fill_upwards`: four doubling left shifts, then `& FULL`. -/
def fillUpwards (b : Nat) : Nat :=
  let b1 := b ||| bbShl b 9
  let b2 := b1 ||| bbShl b1 18
  let b3 := b2 ||| bbShl b2 36
  let b4 := b3 ||| bbShl b3 72
  b4 &&& bbFULL

/-- `Bitboard::fill_downwards`: four doubling right shifts, then `& FULL`. -/
def fillDownwards (b : Nat) : Nat :=
  let b1 := b ||| bbShr b 9
  let b2 := b1 ||| bbShr b1 18
  let b3 := b2 ||| bbShr b2 36
  let b4 := b3 ||| bbShr b3 72
  b4 &&& bbFULL

/-- `Bitboard::file_fill = fill_upwards | fill_downwards`. -/
def fileFill (b : Nat) : Nat := fillUpwards b ||| fillDownwards b

/-- Observable behaviour of the bitboard iterator (`Biterator`): `pop_lsb`
until empty yields every set bit index exactly once in ascending order. -/
def bbList (b : Nat) : List Nat :=
  (List.range 128).filter fun i => b.testBit i

/-! ## Position (`src/board.rs`) -/

structure Position where
  sides : List Nat
  pieces : List Nat
  mailbox : List Piece
  hands : List Hand
deriving DecidableEq, Repr

/-- `Position::default()`: empty bitboards, all-none mailbox, empty hands. -/
def defaultPosition : Position :=
  { sides := [0, 0]
    pieces := List.replicate 14 0
    mailbox := List.replicate 81 pieceNone
    hands := [emptyHand, emptyHand] }

/-- `Position::add_piece`: XOR the square into the piece's side bitboard and
category bitboard, and write the piece into the mailbox. -/
def Position.add_piece (pos : Position) (sq : Nat) (p : Piece) : Position :=
  { pos with
    sides := pos.sides.set p.side ((pos.sides.getD p.side 0) ^^^ bbFromSquare sq)
    pieces := pos.pieces.set p.cat ((pos.pieces.getD p.cat 0) ^^^ bbFromSquare sq)
    mailbox := pos.mailbox.set sq p }

/-- `Position::remove_piece`: XOR the square out of the same two bitboards and
write the none piece into the mailbox. -/
def Position.remove_piece (pos : Position) (sq : Nat) (p : Piece) : Position :=
  { pos with
    sides := pos.sides.set p.side ((pos.sides.getD p.side 0) ^^^ bbFromSquare sq)
    pieces := pos.pieces.set p.cat ((pos.pieces.getD p.cat 0) ^^^ bbFromSquare sq)
    mailbox := pos.mailbox.set sq pieceNone }

/-- `Position::move_piece`: remove the victim if any, remove the mover from
the origin, add the mover at the destination. -/
def Position.move_piece (pos : Position) (f : Nat) (p : Piece) (t : Nat) (victim : Piece) :
    Position :=
  let pos1 := if victim ≠ pieceNone then pos.remove_piece t victim else pos
  (pos1.remove_piece f p).add_piece t p

/-- `Position::piece_on_square`. -/
def Position.piece_on_square (pos : Position) (sq : Nat) : Piece :=
  pos.mailbox.getD sq pieceNone

/-- `Position::occupied = sides[0] | sides[1]`. -/
def Position.occupied (pos : Position) : Nat :=
  pos.sides.getD 0 0 ||| pos.sides.getD 1 0

/-! ## Board -/

structure Board where
  states : List Position
  stm : Nat
  ply : Int
deriving DecidableEq, Repr

/-- `Default for Board`: `states = vec![Position::default(); 256]` (a vector
of length 256, every entry an empty position), `stm = 0`, `ply = 0`. -/
def defaultBoard : Board :=
  { states := List.replicate 256 defaultPosition, stm := 0, ply := 0 }

/-- `Board::current_state`: the last history entry.  The Rust `expect` panics
on an empty history; the model returns the empty position there (no claim
exercises an empty history). -/
def Board.current_state (b : Board) : Position :=
  b.states.getLastD defaultPosition

/-! ## Attack generators

Modelled from the spec: the `movegen` module is not under `src/`.  §4.2 fixes
the contract: per-category pure functions `(origin, occupancy, side) →
reachable squares`, sliding rays stopping at and including the first occupied
square, stepping categories side-relative with mirrored direction, movement
patterns being the standard shogi ones (the spec's overview names the game).
The first side moves toward higher ranks: `get_actions` recovers a pawn
origin as `destination - 9` when `stm == 0`. -/

def tryStep (sq : Nat) (df dr : Int) : Option Nat :=
  let f : Int := (sq % 9 : Nat) + df
  let r : Int := (sq / 9 : Nat) + dr
  if 0 ≤ f ∧ f < 9 ∧ 0 ≤ r ∧ r < 9 then some (r * 9 + f).toNat else none

def stepAttacks (sq : Nat) (deltas : List (Int × Int)) : Nat :=
  deltas.foldl
    (fun acc d =>
      match tryStep sq d.1 d.2 with
      | some t => acc ||| 2 ^ t
      | none => acc)
    0

def rayGo (occ : Nat) (df dr : Int) : Nat → Nat → Nat → Nat
  | 0, _, acc => acc
  | fuel + 1, cur, acc =>
    match tryStep cur df dr with
    | none => acc
    | some t =>
      if occ.testBit t then acc ||| 2 ^ t else rayGo occ df dr fuel t (acc ||| 2 ^ t)

def rayAttacks (occ sq : Nat) (df dr : Int) : Nat := rayGo occ df dr 8 sq 0

def fwdDir (stm : Nat) : Int := if stm = 0 then 1 else -1

/-- Modelled from the spec: lance, a forward sliding ray. -/
def get_lance_attacks (sq occ stm : Nat) : Nat := rayAttacks occ sq 0 (fwdDir stm)

/-- Modelled from the spec: knight, two squares forward and one sideways. -/
def get_knight_attacks (sq stm : Nat) : Nat :=
  stepAttacks sq [(-1, 2 * fwdDir stm), (1, 2 * fwdDir stm)]

/-- Modelled from the spec: silver, forward and the four diagonals. -/
def get_silver_attacks (sq stm : Nat) : Nat :=
  let f := fwdDir stm
  stepAttacks sq [(0, f), (-1, f), (1, f), (-1, -f), (1, -f)]

/-- Modelled from the spec: gold movement, shared by the four
promoted-to-gold categories. -/
def get_gold_attacks (sq stm : Nat) : Nat :=
  let f := fwdDir stm
  stepAttacks sq [(0, f), (-1, f), (1, f), (-1, 0), (1, 0), (0, -f)]

/-- Modelled from the spec: king, all eight neighbours. -/
def get_king_attacks (sq : Nat) : Nat :=
  stepAttacks sq [(0, 1), (-1, 1), (1, 1), (-1, 0), (1, 0), (0, -1), (-1, -1), (1, -1)]

/-- Modelled from the spec: bishop, the four diagonal rays. -/
def get_bishop_attacks (sq occ : Nat) : Nat :=
  rayAttacks occ sq 1 1 ||| rayAttacks occ sq (-1) 1 |||
  rayAttacks occ sq 1 (-1) ||| rayAttacks occ sq (-1) (-1)

/-- Modelled from the spec: rook, the four orthogonal rays. -/
def get_rook_attacks (sq occ : Nat) : Nat :=
  rayAttacks occ sq 0 1 ||| rayAttacks occ sq 0 (-1) |||
  rayAttacks occ sq 1 0 ||| rayAttacks occ sq (-1) 0

/-- Modelled from the spec: the bulk setwise pawn path, one-step-forward
destinations for a whole pawn set via a single shift-and-mask. -/
def setwise_pawns (pawns stm : Nat) : Nat :=
  (if stm = 0 then bbShl pawns 9 else bbShr pawns 9) &&& bbFULL

/-! ## Actions

Modelled from the spec: `types/action.rs` is not under `src/`.  An action is
either a board move (origin, destination, promotion flag) or a drop (piece,
destination); `Actionlist` is the growing list the generator pushes into. -/

inductive Action where
  | move (src dst : Nat) (promo : Bool)
  | drop (p : Piece) (dst : Nat)
deriving DecidableEq, Repr

/-! ## Action enumeration (`Board::get_actions`, `src/board.rs:479`) -/

/-- Promotion-zone test used verbatim in both emission loops:
`(stm == 0 && bit >= 54) || (stm == 1 && bit < 27)`. -/
def zoneCond (stm bit : Nat) : Bool :=
  (stm == 0 && decide (54 ≤ bit)) || (stm == 1 && decide (bit < 27))

/-- Per-piece attack dispatch of the stepwise loop.  The `_ => panic!`
branch of the Rust match is modelled as the empty attack set; it is
unreachable from a consistent position. -/
def attacksFor (occ stm : Nat) (p : Piece) (sq : Nat) : Nat :=
  match p.cat with
  | 0 => 0
  | 1 => get_lance_attacks sq occ stm
  | 2 => get_knight_attacks sq stm
  | 3 => get_silver_attacks sq stm
  | 4 => get_bishop_attacks sq occ
  | 5 => get_rook_attacks sq occ
  | 6 | 8 | 9 | 10 | 11 => get_gold_attacks sq stm
  | 7 => get_king_attacks sq
  | 12 => get_bishop_attacks sq occ ||| get_king_attacks sq
  | 13 => get_rook_attacks sq occ ||| get_king_attacks sq
  | _ => 0

/-- Per-destination emission of the stepwise loop: the promoting action when
the moving category is below gold and the destination is in the zone, then
always the non-promoting action. -/
def stepEmit (cat stm sq bit : Nat) : List Action :=
  (if decide (cat < 6) && zoneCond stm bit then [Action.move sq bit true] else []) ++
  [Action.move sq bit false]

/-- Stepwise loop of `get_actions`: for every own square, attacks minus own
pieces, then `stepEmit` per destination. -/
def stepActs (mb : List Piece) (us occ stm : Nat) : List Action :=
  (bbList us).flatMap fun sq =>
    (bbList (attacksFor occ stm (mb.getD sq pieceNone) sq &&& bbNot us)).flatMap fun bit =>
      stepEmit (mb.getD sq pieceNone).cat stm sq bit

/-- Per-destination emission of the setwise pawn loop: the zone test alone
gates the promoting variant. -/
def pawnEmit (stm og bit : Nat) : List Action :=
  (if zoneCond stm bit then [Action.move og bit true] else []) ++
  [Action.move og bit false]

/-- Setwise pawn loop of `get_actions`: origins recovered by stepping one
rank back toward the mover's side. -/
def pawnActs (ourPawns us stm : Nat) : List Action :=
  (bbList (setwise_pawns ourPawns stm &&& bbNot us)).flatMap fun bit =>
    pawnEmit stm (if stm = 0 then bit - 9 else bit + 9) bit

/-- Candidate destination squares for dropping one held category, from the
drops section of `get_actions` (`src/board.rs:538`–`566`). -/
def openSquaresFor (cat ourPawns empty stm : Nat) : Nat :=
  if cat = 0 then
    let freeFiles := bbNot (fileFill ourPawns)
    let freeSquares := if stm = 0 then bbShr freeFiles 9 else bbShl freeFiles 9
    empty &&& freeSquares
  else if cat = 2 then
    empty &&& (if stm = 0 then bbShr bbFULL 18 else bbShl bbFULL 18)
  else if cat = 1 then
    empty &&& (if stm = 0 then bbShr bbFULL 9 else bbShl bbFULL 9)
  else empty

/-- Drops loop of `get_actions`: one drop per held category and open square;
`piece.as_stm(stm)` makes the dropped piece the mover's. -/
def dropActs (hand : Hand) (ourPawns empty stm : Nat) : List Action :=
  (handHeld hand).flatMap fun pc =>
    (bbList (openSquaresFor pc.1 ourPawns empty stm)).map fun sq =>
      Action.drop ⟨pc.1, stm⟩ sq

/-- `let us = state.sides[self.stm]`. -/
def usOf (b : Board) : Nat := b.current_state.sides.getD b.stm 0

/-- `let our_pawns = us & state.pieces[PAWN]`. -/
def ourPawnsOf (b : Board) : Nat := usOf b &&& b.current_state.pieces.getD 0 0

/-- `let empty = !occ & FULL`. -/
def emptyOf (b : Board) : Nat := bbNot b.current_state.occupied &&& bbFULL

/-- `Board::get_actions`, assembled exactly in source order: stepwise moves,
then setwise pawn moves, then drops. -/
def Board.get_actions (b : Board) : List Action :=
  stepActs b.current_state.mailbox (usOf b) b.current_state.occupied b.stm ++
  pawnActs (ourPawnsOf b) (usOf b) b.stm ++
  dropActs (b.current_state.hands.getD b.stm emptyHand) (ourPawnsOf b) (emptyOf b) b.stm

/-! ## Bit helper lemmas -/

theorem testBit_xor_pow (a s i : Nat) :
    (a ^^^ 2 ^ s).testBit i = if s = i then !(a.testBit i) else a.testBit i := by
  rw [Nat.testBit_xor, Nat.testBit_two_pow]
  by_cases h : s = i <;> simp [h]

theorem testBit_false_of_lt_pow81 {x i : Nat} (h : x < 2 ^ 81) (hi : 81 ≤ i) :
    x.testBit i = false := by
  apply Nat.testBit_lt_two_pow
  calc x < 2 ^ 81 := h
    _ ≤ 2 ^ i := Nat.pow_le_pow_right (by norm_num) hi

theorem getD_out_of_range {α : Type} (l : List α) (i : Nat) (d : α) (h : l.length ≤ i) :
    l.getD i d = d := by
  simp [List.getD, List.getElem?_eq_none h]

/-! ## Placement-primitive sequences (§8 invariant)

The claims quantify over sequences of `add_piece` / `remove_piece` /
`move_piece` calls.  `Op` is one call, `applyOp` executes it, `WFOp` is the
caller obligation stated in §4.3 (the correct piece and victim identities are
supplied and the target of an add is empty), and `Reachable` is the set of
positions produced by such sequences from the empty position. -/

inductive Op where
  | add (sq : Nat) (p : Piece)
  | remove (sq : Nat) (p : Piece)
  | move (f : Nat) (p : Piece) (t : Nat) (victim : Piece)

def applyOp (pos : Position) : Op → Position
  | .add s p => pos.add_piece s p
  | .remove s p => pos.remove_piece s p
  | .move f p t v => pos.move_piece f p t v

def WFOp (pos : Position) : Op → Prop
  | .add s p => s < 81 ∧ p ≠ pieceNone ∧ p.side < 2 ∧ p.cat < 14 ∧
      pos.piece_on_square s = pieceNone
  | .remove s p => s < 81 ∧ p ≠ pieceNone ∧ pos.piece_on_square s = p
  | .move f p t v => f < 81 ∧ t < 81 ∧ f ≠ t ∧ p ≠ pieceNone ∧
      pos.piece_on_square f = p ∧ pos.piece_on_square t = v

inductive Reachable : Position → Prop
  | base : Reachable defaultPosition
  | step {pos : Position} {op : Op} : Reachable pos → WFOp pos op →
      Reachable (applyOp pos op)

/-- Full consistency of the three redundant views, the inductive invariant:
every occupied mailbox square is marked in exactly its piece's side bitboard
and exactly its category bitboard, and empty squares are marked nowhere; the
bitboards carry no bits outside the 81-square domain. -/
def Consistent (pos : Position) : Prop :=
  pos.sides.length = 2 ∧ pos.pieces.length = 14 ∧ pos.mailbox.length = 81 ∧
  (∀ i, i < 2 → pos.sides.getD i 0 < 2 ^ 81) ∧
  (∀ c, c < 14 → pos.pieces.getD c 0 < 2 ^ 81) ∧
  (∀ s, s < 81 →
    (pos.mailbox.getD s pieceNone ≠ pieceNone →
      (pos.mailbox.getD s pieceNone).side < 2 ∧ (pos.mailbox.getD s pieceNone).cat < 14) ∧
    (∀ i, i < 2 → ((pos.sides.getD i 0).testBit s = true ↔
      pos.mailbox.getD s pieceNone ≠ pieceNone ∧ (pos.mailbox.getD s pieceNone).side = i)) ∧
    (∀ c, c < 14 → ((pos.pieces.getD c 0).testBit s = true ↔
      pos.mailbox.getD s pieceNone ≠ pieceNone ∧ (pos.mailbox.getD s pieceNone).cat = c)))

instance (pos : Position) : Decidable (Consistent pos) := by
  unfold Consistent
  infer_instance

theorem consistent_default : Consistent defaultPosition := by decide

theorem getD_set_xor (l : List Nat) (k m : Nat) (hk : k < l.length) (j : Nat) :
    (l.set k ((l.getD k 0) ^^^ m)).getD j 0 =
      if k = j then (l.getD j 0) ^^^ m else l.getD j 0 := by
  by_cases h : k = j
  · subst h
    rw [if_pos rfl, getD_set_self _ _ _ _ hk]
  · rw [if_neg h, getD_set_ne _ _ _ _ _ h]

theorem testBit_set_xor (l : List Nat) (k sq : Nat) (hk : k < l.length) (j b : Nat) :
    ((l.set k ((l.getD k 0) ^^^ 2 ^ sq)).getD j 0).testBit b =
      if k = j ∧ sq = b then !((l.getD j 0).testBit b) else (l.getD j 0).testBit b := by
  rw [getD_set_xor l k (2 ^ sq) hk j]
  by_cases h1 : k = j
  · subst h1
    rw [if_pos rfl, testBit_xor_pow]
    by_cases h2 : sq = b
    · simp [h2]
    · simp [h2]
  · simp [h1]

theorem getD_set_xor_lt {l : List Nat} {k : Nat} (s : Nat) (hk : k < l.length)
    (hb : ∀ i, i < l.length → l.getD i 0 < 2 ^ 81) (hs : s < 81) (j : Nat) (hj : j < l.length) :
    (l.set k ((l.getD k 0) ^^^ 2 ^ s)).getD j 0 < 2 ^ 81 := by
  rw [getD_set_xor l k (2 ^ s) hk j]
  by_cases h : k = j
  · rw [if_pos h]
    exact Nat.xor_lt_two_pow (hb j hj) (Nat.pow_lt_pow_right (by norm_num) hs)
  · rw [if_neg h]
    exact hb j hj

theorem consistent_add {pos : Position} {s : Nat} {p : Piece}
    (hc : Consistent pos) (hs : s < 81) (hp : p ≠ pieceNone)
    (hside : p.side < 2) (hcat : p.cat < 14)
    (hmb : pos.piece_on_square s = pieceNone) :
    Consistent (pos.add_piece s p) := by
  obtain ⟨hl1, hl2, hl3, hbs, hbp, hsq⟩ := hc
  have hmb' : pos.mailbox.getD s pieceNone = pieceNone := hmb
  have hClearS : ∀ j, j < 2 → (pos.sides.getD j 0).testBit s = false := by
    intro j hj
    cases hbit : (pos.sides.getD j 0).testBit s with
    | false => rfl
    | true => exact ((((hsq s hs).2.1 j hj).mp hbit).1 hmb').elim
  have hClearP : ∀ c, c < 14 → (pos.pieces.getD c 0).testBit s = false := by
    intro c hcc
    cases hbit : (pos.pieces.getD c 0).testBit s with
    | false => rfl
    | true => exact ((((hsq s hs).2.2 c hcc).mp hbit).1 hmb').elim
  have hSides : ∀ j b, ((pos.add_piece s p).sides.getD j 0).testBit b =
      if p.side = j ∧ s = b then !((pos.sides.getD j 0).testBit b)
      else (pos.sides.getD j 0).testBit b := by
    intro j b
    have hk : p.side < pos.sides.length := by rw [hl1]; exact hside
    simpa [Position.add_piece, bbFromSquare] using testBit_set_xor pos.sides p.side s hk j b
  have hPieces : ∀ c b, ((pos.add_piece s p).pieces.getD c 0).testBit b =
      if p.cat = c ∧ s = b then !((pos.pieces.getD c 0).testBit b)
      else (pos.pieces.getD c 0).testBit b := by
    intro c b
    have hk : p.cat < pos.pieces.length := by rw [hl2]; exact hcat
    simpa [Position.add_piece, bbFromSquare] using testBit_set_xor pos.pieces p.cat s hk c b
  have hMailS : (pos.add_piece s p).mailbox.getD s pieceNone = p := by
    simp only [Position.add_piece]
    exact getD_set_self _ _ _ _ (by rw [hl3]; exact hs)
  have hMailNe : ∀ b, s ≠ b →
      (pos.add_piece s p).mailbox.getD b pieceNone = pos.mailbox.getD b pieceNone := by
    intro b hb
    simp only [Position.add_piece]
    exact getD_set_ne _ _ _ _ _ hb
  refine ⟨?_, ?_, ?_, ?_, ?_, ?_⟩
  · simp [Position.add_piece, hl1]
  · simp [Position.add_piece, hl2]
  · simp [Position.add_piece, hl3]
  · intro i hi
    have hk : p.side < pos.sides.length := by rw [hl1]; exact hside
    have hb : ∀ j, j < pos.sides.length → pos.sides.getD j 0 < 2 ^ 81 := by
      intro j hj
      exact hbs j (by rwa [hl1] at hj)
    have := getD_set_xor_lt (l := pos.sides) (k := p.side) s hk hb hs i (by rw [hl1]; exact hi)
    simpa [Position.add_piece, bbFromSquare] using this
  · intro c hcc
    have hk : p.cat < pos.pieces.length := by rw [hl2]; exact hcat
    have hb : ∀ j, j < pos.pieces.length → pos.pieces.getD j 0 < 2 ^ 81 := by
      intro j hj
      exact hbp j (by rwa [hl2] at hj)
    have := getD_set_xor_lt (l := pos.pieces) (k := p.cat) s hk hb hs c (by rw [hl2]; exact hcc)
    simpa [Position.add_piece, bbFromSquare] using this
  · intro s' hs'
    by_cases hss : s = s'
    · subst hss
      refine ⟨?_, ?_, ?_⟩
      · intro _
        rw [hMailS]
        exact ⟨hside, hcat⟩
      · intro i hi
        rw [hSides i s, hMailS]
        by_cases hpi : p.side = i
        · rw [if_pos ⟨hpi, rfl⟩, hClearS i hi]
          simp [hp, hpi]
        · rw [if_neg (by simp [hpi]), hClearS i hi]
          simp [hpi]
      · intro c hcc
        rw [hPieces c s, hMailS]
        by_cases hpc : p.cat = c
        · rw [if_pos ⟨hpc, rfl⟩, hClearP c hcc]
          simp [hp, hpc]
        · rw [if_neg (by simp [hpc]), hClearP c hcc]
          simp [hpc]
    · obtain ⟨hv, hS, hP⟩ := hsq s' hs'
      refine ⟨?_, ?_, ?_⟩
      · rw [hMailNe s' hss]
        exact hv
      · intro i hi
        rw [hSides i s', hMailNe s' hss, if_neg (fun hcon => hss hcon.2)]
        exact hS i hi
      · intro c hcc
        rw [hPieces c s', hMailNe s' hss, if_neg (fun hcon => hss hcon.2)]
        exact hP c hcc

theorem consistent_remove {pos : Position} {s : Nat} {p : Piece}
    (hc : Consistent pos) (hs : s < 81) (hp : p ≠ pieceNone)
    (hmb : pos.piece_on_square s = p) :
    Consistent (pos.remove_piece s p) := by
  obtain ⟨hl1, hl2, hl3, hbs, hbp, hsq⟩ := hc
  have hmb' : pos.mailbox.getD s pieceNone = p := hmb
  have hval : p.side < 2 ∧ p.cat < 14 := by
    have := (hsq s hs).1
    rw [hmb'] at this
    exact this hp
  have hside := hval.1
  have hcat := hval.2
  have hSbit : ∀ j, j < 2 →
      (pos.sides.getD j 0).testBit s = (if p.side = j then true else false) := by
    intro j hj
    have hiff := (hsq s hs).2.1 j hj
    rw [hmb'] at hiff
    by_cases hpj : p.side = j
    · rw [if_pos hpj]
      exact hiff.mpr ⟨hp, hpj⟩
    · rw [if_neg hpj]
      cases hbit : (pos.sides.getD j 0).testBit s with
      | false => rfl
      | true => exact (hpj ((hiff.mp hbit).2)).elim
  have hPbit : ∀ c, c < 14 →
      (pos.pieces.getD c 0).testBit s = (if p.cat = c then true else false) := by
    intro c hcc
    have hiff := (hsq s hs).2.2 c hcc
    rw [hmb'] at hiff
    by_cases hpc : p.cat = c
    · rw [if_pos hpc]
      exact hiff.mpr ⟨hp, hpc⟩
    · rw [if_neg hpc]
      cases hbit : (pos.pieces.getD c 0).testBit s with
      | false => rfl
      | true => exact (hpc ((hiff.mp hbit).2)).elim
  have hSides : ∀ j b, ((pos.remove_piece s p).sides.getD j 0).testBit b =
      if p.side = j ∧ s = b then !((pos.sides.getD j 0).testBit b)
      else (pos.sides.getD j 0).testBit b := by
    intro j b
    have hk : p.side < pos.sides.length := by rw [hl1]; exact hside
    simpa [Position.remove_piece, bbFromSquare] using testBit_set_xor pos.sides p.side s hk j b
  have hPieces : ∀ c b, ((pos.remove_piece s p).pieces.getD c 0).testBit b =
      if p.cat = c ∧ s = b then !((pos.pieces.getD c 0).testBit b)
      else (pos.pieces.getD c 0).testBit b := by
    intro c b
    have hk : p.cat < pos.pieces.length := by rw [hl2]; exact hcat
    simpa [Position.remove_piece, bbFromSquare] using testBit_set_xor pos.pieces p.cat s hk c b
  have hMailS : (pos.remove_piece s p).mailbox.getD s pieceNone = pieceNone := by
    simp only [Position.remove_piece]
    exact getD_set_self _ _ _ _ (by rw [hl3]; exact hs)
  have hMailNe : ∀ b, s ≠ b →
      (pos.remove_piece s p).mailbox.getD b pieceNone = pos.mailbox.getD b pieceNone := by
    intro b hb
    simp only [Position.remove_piece]
    exact getD_set_ne _ _ _ _ _ hb
  refine ⟨?_, ?_, ?_, ?_, ?_, ?_⟩
  · simp [Position.remove_piece, hl1]
  · simp [Position.remove_piece, hl2]
  · simp [Position.remove_piece, hl3]
  · intro i hi
    have hk : p.side < pos.sides.length := by rw [hl1]; exact hside
    have hb : ∀ j, j < pos.sides.length → pos.sides.getD j 0 < 2 ^ 81 := by
      intro j hj
      exact hbs j (by rwa [hl1] at hj)
    have := getD_set_xor_lt (l := pos.sides) (k := p.side) s hk hb hs i (by rw [hl1]; exact hi)
    simpa [Position.remove_piece, bbFromSquare] using this
  · intro c hcc
    have hk : p.cat < pos.pieces.length := by rw [hl2]; exact hcat
    have hb : ∀ j, j < pos.pieces.length → pos.pieces.getD j 0 < 2 ^ 81 := by
      intro j hj
      exact hbp j (by rwa [hl2] at hj)
    have := getD_set_xor_lt (l := pos.pieces) (k := p.cat) s hk hb hs c (by rw [hl2]; exact hcc)
    simpa [Position.remove_piece, bbFromSquare] using this
  · intro s' hs'
    by_cases hss : s = s'
    · subst hss
      refine ⟨?_, ?_, ?_⟩
      · intro hne
        rw [hMailS] at hne
        exact (hne rfl).elim
      · intro i hi
        rw [hSides i s, hMailS, hSbit i hi]
        by_cases hpi : p.side = i
        · rw [if_pos ⟨hpi, rfl⟩, if_pos hpi]
          simp
        · rw [if_neg (by simp [hpi]), if_neg hpi]
          simp
      · intro c hcc
        rw [hPieces c s, hMailS, hPbit c hcc]
        by_cases hpc : p.cat = c
        · rw [if_pos ⟨hpc, rfl⟩, if_pos hpc]
          simp
        · rw [if_neg (by simp [hpc]), if_neg hpc]
          simp
    · obtain ⟨hv, hS, hP⟩ := hsq s' hs'
      refine ⟨?_, ?_, ?_⟩
      · rw [hMailNe s' hss]
        exact hv
      · intro i hi
        rw [hSides i s', hMailNe s' hss, if_neg (fun hcon => hss hcon.2)]
        exact hS i hi
      · intro c hcc
        rw [hPieces c s', hMailNe s' hss, if_neg (fun hcon => hss hcon.2)]
        exact hP c hcc

theorem consistent_apply {pos : Position} {op : Op}
    (hc : Consistent pos) (hwf : WFOp pos op) : Consistent (applyOp pos op) := by
  cases op with
  | add s p =>
    exact consistent_add hc hwf.1 hwf.2.1 hwf.2.2.1 hwf.2.2.2.1 hwf.2.2.2.2
  | remove s p =>
    exact consistent_remove hc hwf.1 hwf.2.1 hwf.2.2
  | move f p t v =>
    obtain ⟨hf, ht, hft, hp, hmbf, hmbt⟩ := hwf
    have hl3 : pos.mailbox.length = 81 := hc.2.2.1
    have hmbf' : pos.mailbox.getD f pieceNone = p := hmbf
    have hval : p.side < 2 ∧ p.cat < 14 := by
      have := (hc.2.2.2.2.2 f hf).1
      rw [hmbf'] at this
      exact this hp
    show Consistent (pos.move_piece f p t v)
    unfold Position.move_piece
    by_cases hv : v = pieceNone
    · rw [if_neg (fun h => h hv)]
      have h1 := consistent_remove hc hf hp hmbf
      have hmt : (pos.remove_piece f p).piece_on_square t = pieceNone := by
        show (pos.remove_piece f p).mailbox.getD t pieceNone = pieceNone
        simp only [Position.remove_piece]
        rw [getD_set_ne _ _ _ _ _ hft]
        rw [show pos.mailbox.getD t pieceNone = v from hmbt, hv]
      exact consistent_add h1 ht hp hval.1 hval.2 hmt
    · rw [if_pos hv]
      have h1 := consistent_remove hc ht hv hmbt
      have hmbf1 : (pos.remove_piece t v).piece_on_square f = p := by
        show (pos.remove_piece t v).mailbox.getD f pieceNone = p
        simp only [Position.remove_piece]
        rw [getD_set_ne _ _ _ _ _ (fun h => hft h.symm), hmbf']
      have h2 := consistent_remove h1 hf hp hmbf1
      have hmt2 : ((pos.remove_piece t v).remove_piece f p).piece_on_square t = pieceNone := by
        show ((pos.remove_piece t v).remove_piece f p).mailbox.getD t pieceNone = pieceNone
        simp only [Position.remove_piece]
        rw [getD_set_ne _ _ _ _ _ hft]
        exact getD_set_self _ _ _ _ (by rw [hl3]; exact ht)
      exact consistent_add h2 ht hp hval.1 hval.2 hmt2

theorem reachable_consistent {pos : Position} (h : Reachable pos) : Consistent pos := by
  induction h with
  | base => exact consistent_default
  | step hr hwf ih => exact consistent_apply ih hwf

instance (pos : Position) (op : Op) : Decidable (WFOp pos op) := by
  cases op with
  | add s p => unfold WFOp; infer_instance
  | remove s p => unfold WFOp; infer_instance
  | move f p t v => unfold WFOp; infer_instance

/-- Position built by calling `add_piece(0, sente pawn)` twice from the empty
position: every call is a real call of the Rust primitives, but the XOR
updates cancel while the mailbox keeps the piece. -/
def doubleAddPos : Position :=
  applyOp (applyOp defaultPosition (Op.add 0 ⟨0, 0⟩)) (Op.add 0 ⟨0, 0⟩)

/-- C3 counterexample: after the call sequence `add_piece(0, sente pawn);
add_piece(0, sente pawn)` from the empty position, square 0's direct-lookup
entry is not the none piece although square 0 is absent from both side
square-sets and from every category square-set — the claimed invariant fails
for this sequence of `add_piece` calls. -/
theorem c3_counterexample :
    doubleAddPos.mailbox.getD 0 pieceNone ≠ pieceNone ∧
    (doubleAddPos.sides.getD 0 0).testBit 0 = false ∧
    (doubleAddPos.sides.getD 1 0).testBit 0 = false ∧
    (∀ c, c < 14 → (doubleAddPos.pieces.getD c 0).testBit 0 = false) := by
  decide

/-- C3 amended: after any sequence of well-formed `add_piece` /
`remove_piece` / `move_piece` calls from the empty position (adds target a
square whose lookup is none with a valid non-none piece, removes and moves
supply the piece and victim actually present, §4.3), the two side square-sets
are disjoint and a square's direct-lookup entry is the none piece iff the
square is absent from both side square-sets and from every category
square-set. -/
theorem c3_amended {pos : Position} (h : Reachable pos) :
    (pos.sides.getD 0 0) &&& (pos.sides.getD 1 0) = 0 ∧
    (∀ s, s < 81 → (pos.mailbox.getD s pieceNone = pieceNone ↔
      ((pos.sides.getD 0 0).testBit s = false ∧ (pos.sides.getD 1 0).testBit s = false ∧
       ∀ c, c < 14 → (pos.pieces.getD c 0).testBit s = false))) := by
  obtain ⟨hl1, hl2, hl3, hbs, hbp, hsq⟩ := reachable_consistent h
  constructor
  · apply Nat.eq_of_testBit_eq
    intro i
    rw [Nat.testBit_and, Nat.zero_testBit]
    by_cases hi : i < 81
    · cases hb0 : (pos.sides.getD 0 0).testBit i with
      | false => rfl
      | true =>
        cases hb1 : (pos.sides.getD 1 0).testBit i with
        | false => rfl
        | true =>
          have h0 := ((hsq i hi).2.1 0 (by norm_num)).mp hb0
          have h1 := ((hsq i hi).2.1 1 (by norm_num)).mp hb1
          have : (0 : Nat) = 1 := by rw [← h0.2, h1.2]
          exact absurd this (by norm_num)
    · rw [testBit_false_of_lt_pow81 (hbs 0 (by norm_num)) (le_of_not_lt hi)]
      rfl
  · intro s hs
    constructor
    · intro hnone
      refine ⟨?_, ?_, ?_⟩
      · cases hb : (pos.sides.getD 0 0).testBit s with
        | false => rfl
        | true => exact ((((hsq s hs).2.1 0 (by norm_num)).mp hb).1 hnone).elim
      · cases hb : (pos.sides.getD 1 0).testBit s with
        | false => rfl
        | true => exact ((((hsq s hs).2.1 1 (by norm_num)).mp hb).1 hnone).elim
      · intro c hcc
        cases hb : (pos.pieces.getD c 0).testBit s with
        | false => rfl
        | true => exact ((((hsq s hs).2.2 c hcc).mp hb).1 hnone).elim
    · intro ⟨h0, h1, hcl⟩
      by_contra hne
      have hval := (hsq s hs).1 hne
      have hbit := ((hsq s hs).2.1 (pos.mailbox.getD s pieceNone).side hval.1).mpr ⟨hne, rfl⟩
      have hside : (pos.mailbox.getD s pieceNone).side = 0 ∨
          (pos.mailbox.getD s pieceNone).side = 1 := by omega
      cases hside with
      | inl hh =>
        rw [hh] at hbit
        rw [hbit] at h0
        exact Bool.noConfusion h0
      | inr hh =>
        rw [hh] at hbit
        rw [hbit] at h1
        exact Bool.noConfusion h1

/-- C3 witness: the amended invariant instantiated after the single
well-formed call `add_piece(0, sente pawn)` from the empty position. -/
theorem c3_witness :
    ((applyOp defaultPosition (Op.add 0 ⟨0, 0⟩)).sides.getD 0 0) &&&
      ((applyOp defaultPosition (Op.add 0 ⟨0, 0⟩)).sides.getD 1 0) = 0 ∧
    (∀ s, s < 81 →
      ((applyOp defaultPosition (Op.add 0 ⟨0, 0⟩)).mailbox.getD s pieceNone = pieceNone ↔
      (((applyOp defaultPosition (Op.add 0 ⟨0, 0⟩)).sides.getD 0 0).testBit s = false ∧
       ((applyOp defaultPosition (Op.add 0 ⟨0, 0⟩)).sides.getD 1 0).testBit s = false ∧
       ∀ c, c < 14 →
         ((applyOp defaultPosition (Op.add 0 ⟨0, 0⟩)).pieces.getD c 0).testBit s = false))) :=
  c3_amended (Reachable.step Reachable.base (by decide))

/-! ## C9: add then remove -/

theorem set_set_xor_getD (l : List Nat) (k m j : Nat) :
    ((l.set k ((l.getD k 0) ^^^ m)).set k
      (((l.set k ((l.getD k 0) ^^^ m)).getD k 0) ^^^ m)).getD j 0 = l.getD j 0 := by
  by_cases hk : k < l.length
  · by_cases hj : k = j
    · subst hj
      rw [getD_set_self _ _ _ _ (by simpa using hk)]
      rw [getD_set_self _ _ _ _ hk]
      rw [Nat.xor_assoc, Nat.xor_self, Nat.xor_zero]
    · rw [getD_set_ne _ _ _ _ _ hj, getD_set_ne _ _ _ _ _ hj]
  · have hle := le_of_not_lt hk
    have hA : l.set k ((l.getD k 0) ^^^ m) = l := List.set_eq_of_length_le hle
    rw [hA, hA]

/-- Position with a gote pawn already on square 0. -/
def occupiedPos : Position := defaultPosition.add_piece 0 ⟨0, 1⟩

/-- C9 counterexample: starting from a position in which square 0 already
holds a gote pawn, calling `add_piece(0, sente pawn)` then
`remove_piece(0, sente pawn)` leaves square 0 present in the gote side
square-set (the claim asserts it would be absent from both side square-sets
for every starting position). -/
theorem c9_counterexample :
    (((occupiedPos.add_piece 0 ⟨0, 0⟩).remove_piece 0 ⟨0, 0⟩).sides.getD 1 0).testBit 0 =
      true ∧
    ((occupiedPos.add_piece 0 ⟨0, 0⟩).remove_piece 0 ⟨0, 0⟩).piece_on_square 0 =
      pieceNone := by
  decide

/-- C9 amended: for every position in which square s is absent from both side
square-sets and from every category square-set, and every piece p other than
the none piece, `add_piece(s, p)` then `remove_piece(s, p)` leaves the none
piece at s in the direct lookup and leaves s absent from both side
square-sets and from every category square-set. -/
theorem c9_amended (pos : Position) (s : Nat) (p : Piece) (_hp : p ≠ pieceNone)
    (h0 : ∀ i, i < 2 → (pos.sides.getD i 0).testBit s = false)
    (hP : ∀ c, c < 14 → (pos.pieces.getD c 0).testBit s = false) :
    ((pos.add_piece s p).remove_piece s p).piece_on_square s = pieceNone ∧
    (∀ i, i < 2 →
      ((((pos.add_piece s p).remove_piece s p).sides.getD i 0).testBit s = false)) ∧
    (∀ c, c < 14 →
      ((((pos.add_piece s p).remove_piece s p).pieces.getD c 0).testBit s = false)) := by
  have hsides : ∀ j, ((pos.add_piece s p).remove_piece s p).sides.getD j 0 =
      pos.sides.getD j 0 := by
    intro j
    simp only [Position.add_piece, Position.remove_piece]
    exact set_set_xor_getD pos.sides p.side (bbFromSquare s) j
  have hpieces : ∀ j, ((pos.add_piece s p).remove_piece s p).pieces.getD j 0 =
      pos.pieces.getD j 0 := by
    intro j
    simp only [Position.add_piece, Position.remove_piece]
    exact set_set_xor_getD pos.pieces p.cat (bbFromSquare s) j
  have hmail : ((pos.add_piece s p).remove_piece s p).piece_on_square s = pieceNone := by
    show ((pos.add_piece s p).remove_piece s p).mailbox.getD s pieceNone = pieceNone
    simp only [Position.add_piece, Position.remove_piece]
    by_cases hlen : s < pos.mailbox.length
    · exact getD_set_self _ _ _ _ (by simpa using hlen)
    · have hle := le_of_not_lt hlen
      have h1 : pos.mailbox.set s p = pos.mailbox := List.set_eq_of_length_le hle
      rw [h1, List.set_eq_of_length_le hle]
      exact getD_out_of_range _ _ _ hle
  exact ⟨hmail,
    fun i hi => by rw [hsides i]; exact h0 i hi,
    fun c hcc => by rw [hpieces c]; exact hP c hcc⟩

/-- C9 witness: the amended round-trip instantiated at the empty position,
square 0, and the sente pawn. -/
theorem c9_witness :
    ((defaultPosition.add_piece 0 ⟨0, 0⟩).remove_piece 0 ⟨0, 0⟩).piece_on_square 0 =
      pieceNone ∧
    (∀ i, i < 2 →
      ((((defaultPosition.add_piece 0 ⟨0, 0⟩).remove_piece 0 ⟨0, 0⟩).sides.getD i 0).testBit 0 =
        false)) ∧
    (∀ c, c < 14 →
      ((((defaultPosition.add_piece 0 ⟨0, 0⟩).remove_piece 0 ⟨0, 0⟩).pieces.getD c 0).testBit 0 =
        false)) :=
  c9_amended defaultPosition 0 ⟨0, 0⟩ (by decide) (by decide) (by decide)

/-! ## Membership characterisation of the emitted move lists -/

theorem mem_bbList {a b : Nat} : a ∈ bbList b ↔ a < 128 ∧ b.testBit a = true := by
  simp [bbList, List.mem_filter, List.mem_range]

theorem mem_stepEmit {a : Action} {cat stm sq bit : Nat} :
    a ∈ stepEmit cat stm sq bit ↔
      (a = Action.move sq bit true ∧ cat < 6 ∧ zoneCond stm bit = true) ∨
      a = Action.move sq bit false := by
  unfold stepEmit
  by_cases h : (decide (cat < 6) && zoneCond stm bit) = true
  · rw [if_pos h]
    rw [Bool.and_eq_true, decide_eq_true_eq] at h
    simp only [List.mem_append, List.mem_singleton]
    constructor
    · rintro (ha | ha)
      · exact Or.inl ⟨ha, h.1, h.2⟩
      · exact Or.inr ha
    · rintro (⟨ha, _, _⟩ | ha)
      · exact Or.inl ha
      · exact Or.inr ha
  · rw [if_neg h]
    rw [Bool.and_eq_true, decide_eq_true_eq] at h
    simp only [List.nil_append, List.mem_singleton]
    constructor
    · intro ha
      exact Or.inr ha
    · rintro (⟨_, hcat, hzone⟩ | ha)
      · exact absurd ⟨hcat, hzone⟩ h
      · exact ha

theorem mem_pawnEmit {a : Action} {stm og bit : Nat} :
    a ∈ pawnEmit stm og bit ↔
      (a = Action.move og bit true ∧ zoneCond stm bit = true) ∨
      a = Action.move og bit false := by
  unfold pawnEmit
  by_cases h : zoneCond stm bit = true
  · rw [if_pos h]
    simp only [List.mem_append, List.mem_singleton]
    constructor
    · rintro (ha | ha)
      · exact Or.inl ⟨ha, h⟩
      · exact Or.inr ha
    · rintro (⟨ha, _⟩ | ha)
      · exact Or.inl ha
      · exact Or.inr ha
  · rw [if_neg h]
    simp only [List.nil_append, List.mem_singleton]
    constructor
    · intro ha
      exact Or.inr ha
    · rintro (⟨_, hzone⟩ | ha)
      · exact absurd hzone h
      · exact ha

theorem move_mem_stepActs_iff {mb : List Piece} {us occ stm f t : Nat} {pr : Bool} :
    Action.move f t pr ∈ stepActs mb us occ stm ↔
      (f ∈ bbList us ∧
       t ∈ bbList (attacksFor occ stm (mb.getD f pieceNone) f &&& bbNot us) ∧
       (pr = true → (mb.getD f pieceNone).cat < 6 ∧ zoneCond stm t = true)) := by
  simp only [stepActs, List.mem_flatMap, mem_stepEmit, Action.move.injEq]
  constructor
  · rintro ⟨sq, hsq, bit, hbit, (⟨⟨hf, ht, _⟩, hcat, hzone⟩ | ⟨hf, ht, hpr⟩)⟩
    · subst hf
      subst ht
      exact ⟨hsq, hbit, fun _ => ⟨hcat, hzone⟩⟩
    · subst hf
      subst ht
      refine ⟨hsq, hbit, fun hcontra => ?_⟩
      rw [hpr] at hcontra
      exact Bool.noConfusion hcontra
  · rintro ⟨hf, ht, himp⟩
    refine ⟨f, hf, t, ht, ?_⟩
    cases pr with
    | true => exact Or.inl ⟨⟨rfl, rfl, rfl⟩, (himp rfl).1, (himp rfl).2⟩
    | false => exact Or.inr ⟨rfl, rfl, rfl⟩

theorem move_mem_pawnActs_iff {ourPawns us stm f t : Nat} {pr : Bool} :
    Action.move f t pr ∈ pawnActs ourPawns us stm ↔
      (t ∈ bbList (setwise_pawns ourPawns stm &&& bbNot us) ∧
       f = (if stm = 0 then t - 9 else t + 9) ∧
       (pr = true → zoneCond stm t = true)) := by
  simp only [pawnActs, List.mem_flatMap, mem_pawnEmit, Action.move.injEq]
  constructor
  · rintro ⟨bit, hbit, (⟨⟨hf, ht, _⟩, hzone⟩ | ⟨hf, ht, hpr⟩)⟩
    · subst ht
      exact ⟨hbit, hf, fun _ => hzone⟩
    · subst ht
      refine ⟨hbit, hf, fun hcontra => ?_⟩
      rw [hpr] at hcontra
      exact Bool.noConfusion hcontra
  · rintro ⟨hbit, hf, himp⟩
    refine ⟨t, hbit, ?_⟩
    cases pr with
    | true => exact Or.inl ⟨⟨hf, rfl, rfl⟩, himp rfl⟩
    | false => exact Or.inr ⟨hf, rfl, rfl⟩

theorem move_not_mem_dropActs {hand : Hand} {ourPawns empty stm f t : Nat} {pr : Bool} :
    Action.move f t pr ∉ dropActs hand ourPawns empty stm := by
  intro h
  rw [dropActs, List.mem_flatMap] at h
  obtain ⟨pc, _, h2⟩ := h
  rw [List.mem_map] at h2
  obtain ⟨sq, _, heq⟩ := h2
  exact Action.noConfusion heq

theorem move_mem_get_actions_iff (b : Board) (f t : Nat) (pr : Bool) :
    Action.move f t pr ∈ b.get_actions ↔
      (Action.move f t pr ∈
         stepActs b.current_state.mailbox (usOf b) b.current_state.occupied b.stm ∨
       Action.move f t pr ∈ pawnActs (ourPawnsOf b) (usOf b) b.stm) := by
  unfold Board.get_actions
  rw [List.mem_append, List.mem_append]
  constructor
  · rintro ((h | h) | h)
    · exact Or.inl h
    · exact Or.inr h
    · exact absurd h move_not_mem_dropActs
  · rintro (h | h)
    · exact Or.inl (Or.inl h)
    · exact Or.inl (Or.inr h)

theorem zoneCond_stm {stm t : Nat} (h : zoneCond stm t = true) : stm = 0 ∨ stm = 1 := by
  unfold zoneCond at h
  simp only [Bool.or_eq_true, Bool.and_eq_true, beq_iff_eq] at h
  rcases h with ⟨h0, _⟩ | ⟨h1, _⟩
  · exact Or.inl h0
  · exact Or.inr h1

theorem setwise_pawns_testBit_0 {p t : Nat} (h : (setwise_pawns p 0).testBit t = true) :
    9 ≤ t ∧ t < 81 ∧ p.testBit (t - 9) = true := by
  unfold setwise_pawns bbShl bbFULL U128 at h
  rw [if_pos rfl, Nat.testBit_and] at h
  have h1 := (Bool.and_eq_true _ _).mp h
  have ht81 : t < 81 := by
    have h2 := h1.2
    rw [Nat.testBit_two_pow_sub_one] at h2
    exact of_decide_eq_true h2
  have h2 := h1.1
  rw [Nat.testBit_mod_two_pow] at h2
  have h3 := ((Bool.and_eq_true _ _).mp h2).2
  rw [Nat.testBit_shiftLeft] at h3
  have h4 := (Bool.and_eq_true _ _).mp h3
  exact ⟨of_decide_eq_true h4.1, ht81, h4.2⟩

theorem setwise_pawns_testBit_1 {p t : Nat} (h : (setwise_pawns p 1).testBit t = true) :
    t < 81 ∧ p.testBit (9 + t) = true := by
  unfold setwise_pawns bbShr bbFULL at h
  rw [if_neg (by norm_num), Nat.testBit_and] at h
  have h1 := (Bool.and_eq_true _ _).mp h
  have ht81 : t < 81 := by
    have h2 := h1.2
    rw [Nat.testBit_two_pow_sub_one] at h2
    exact of_decide_eq_true h2
  have h2 := h1.1
  rw [Nat.testBit_shiftRight] at h2
  exact ⟨ht81, h2⟩

/-! ## C4: promotion eligibility -/

/-- Position with a lone sente rook on square 54 (file 0, rank 6 — inside the
first side's promotion zone). -/
def rookPos : Position := defaultPosition.add_piece 54 ⟨5, 0⟩

def rookBoard : Board := { states := [rookPos], stm := 0, ply := 0 }

/-- C4 counterexample: a sente rook (category 5, below gold) on square 54
moves to square 45 — the origin lies in the promotion zone, the destination
does not.  The claim says such a move is emitted both as a promoting and a
non-promoting action; `get_actions` emits only the non-promoting one, because
the code tests the destination alone. -/
theorem c4_counterexample :
    rookPos.piece_on_square 54 = ⟨5, 0⟩ ∧
    Action.move 54 45 false ∈ rookBoard.get_actions ∧
    Action.move 54 45 true ∉ rookBoard.get_actions := by
  decide

/-- C4 amended: for every board whose current snapshot is consistent, a board
move is emitted as a promoting action exactly when it is also emitted as a
non-promoting action, its moving category is below gold (pawn, lance, knight,
silver, bishop, rook), and its destination lies in the mover's promotion zone
(square index ≥ 54 for the first side, < 27 for the second side); the origin
square plays no role.  In particular a first-side bishop move ending on
square 53 has no promoting variant and one ending on square 54 always has
both variants. -/
theorem c4_amended (b : Board) (hc : Consistent b.current_state) (f t : Nat) :
    Action.move f t true ∈ b.get_actions ↔
      (Action.move f t false ∈ b.get_actions ∧
       (b.current_state.piece_on_square f).cat < 6 ∧ zoneCond b.stm t = true) := by
  constructor
  · intro h
    rcases (move_mem_get_actions_iff b f t true).mp h with hstep | hpawn
    · rw [move_mem_stepActs_iff] at hstep
      obtain ⟨hf, ht, himp⟩ := hstep
      obtain ⟨hcat, hzone⟩ := himp rfl
      refine ⟨?_, hcat, hzone⟩
      exact (move_mem_get_actions_iff b f t false).mpr
        (Or.inl (move_mem_stepActs_iff.mpr ⟨hf, ht, fun hcontra => Bool.noConfusion hcontra⟩))
    · rw [move_mem_pawnActs_iff] at hpawn
      obtain ⟨ht, hf, himp⟩ := hpawn
      have hzone := himp rfl
      have hfalse : Action.move f t false ∈ b.get_actions :=
        (move_mem_get_actions_iff b f t false).mpr
          (Or.inr (move_mem_pawnActs_iff.mpr ⟨ht, hf, fun hcontra => Bool.noConfusion hcontra⟩))
      refine ⟨hfalse, ?_, hzone⟩
      -- the origin of a setwise pawn move carries one of our pawns, so its
      -- mailbox entry has category 0 by consistency
      obtain ⟨ht128, htb⟩ := mem_bbList.mp ht
      rw [Nat.testBit_and] at htb
      have hsw := ((Bool.and_eq_true _ _).mp htb).1
      obtain ⟨_, _, _, hbs, _, hsq⟩ := hc
      rcases zoneCond_stm hzone with hstm | hstm
      · rw [hstm] at hsw hf
        obtain ⟨h9, h81, hpbit⟩ := setwise_pawns_testBit_0 hsw
        rw [if_pos rfl] at hf
        rw [ourPawnsOf, Nat.testBit_and] at hpbit
        have hpc := ((Bool.and_eq_true _ _).mp hpbit).2
        have hcons := ((hsq (t - 9) (by omega)).2.2 0 (by norm_num)).mp hpc
        show (b.current_state.mailbox.getD f pieceNone).cat < 6
        rw [hf, hcons.2]
        norm_num
      · rw [hstm] at hsw hf
        obtain ⟨h81, hpbit⟩ := setwise_pawns_testBit_1 hsw
        rw [if_neg (by norm_num)] at hf
        rw [ourPawnsOf, Nat.testBit_and] at hpbit
        have hus := ((Bool.and_eq_true _ _).mp hpbit).1
        have hpc := ((Bool.and_eq_true _ _).mp hpbit).2
        have hlt : 9 + t < 81 := by
          by_contra hge
          have hbound : b.current_state.sides.getD b.stm 0 < 2 ^ 81 := by
            rw [hstm]
            exact hbs 1 (by norm_num)
          rw [usOf] at hus
          rw [testBit_false_of_lt_pow81 hbound (by omega)] at hus
          exact Bool.noConfusion hus
        have hcons := ((hsq (9 + t) hlt).2.2 0 (by norm_num)).mp hpc
        show (b.current_state.mailbox.getD f pieceNone).cat < 6
        rw [hf, show t + 9 = 9 + t from Nat.add_comm t 9, hcons.2]
        norm_num
  · rintro ⟨hfalse, hcat, hzone⟩
    rcases (move_mem_get_actions_iff b f t false).mp hfalse with hstep | hpawn
    · rw [move_mem_stepActs_iff] at hstep
      obtain ⟨hf, ht, _⟩ := hstep
      exact (move_mem_get_actions_iff b f t true).mpr
        (Or.inl (move_mem_stepActs_iff.mpr ⟨hf, ht, fun _ => ⟨hcat, hzone⟩⟩))
    · rw [move_mem_pawnActs_iff] at hpawn
      obtain ⟨ht, hf, _⟩ := hpawn
      exact (move_mem_get_actions_iff b f t true).mpr
        (Or.inr (move_mem_pawnActs_iff.mpr ⟨ht, hf, fun _ => hzone⟩))

/-- C4 witness: the amended promotion rule instantiated on the lone-rook
board for the move from 54 to 63 (destination inside the zone). -/
theorem c4_witness :
    Action.move 54 63 true ∈ rookBoard.get_actions ↔
      (Action.move 54 63 false ∈ rookBoard.get_actions ∧
       (rookBoard.current_state.piece_on_square 54).cat < 6 ∧
       zoneCond rookBoard.stm 63 = true) :=
  c4_amended rookBoard (by decide) 54 63

/-! ## Text-format loading (`Board::load_fen`, `src/board.rs:147`)

The Rust function mutates `self` in this order: parse the placement token
into a local `Position` (panicking on an invalid character or on a mailbox
index past the board), assign `self.stm` from the second token, parse the
hand token into the local position (panicking on an invalid character),
optionally parse the fourth token into `self.ply`, and finally push the
position onto `self.states`.  Each panic is modelled as an error result
paired with the board exactly as mutated up to the panic point. -/

def isAsciiWs (c : Char) : Bool :=
  c = ' ' || c = '\t' || c = '\n' || c = Char.ofNat 12 || c = '\r'

def splitWsAux : List Char → List Char → List (List Char)
  | [], cur => if cur.isEmpty then [] else [cur.reverse]
  | c :: rest, cur =>
    if isAsciiWs c then
      if cur.isEmpty then splitWsAux rest [] else cur.reverse :: splitWsAux rest []
    else splitWsAux rest (c :: cur)

/-- `str.split_ascii_whitespace`: maximal runs of non-whitespace. -/
def splitWs (cs : List Char) : List (List Char) := splitWsAux cs []

def splitSlashAux : List Char → List Char → List (List Char)
  | [], cur => [cur.reverse]
  | c :: rest, cur =>
    if c = '/' then cur.reverse :: splitSlashAux rest [] else splitSlashAux rest (c :: cur)

/-- `token.rsplit('/')`: the `/`-separated groups in reverse order, empties
kept. -/
def rsplitSlash (cs : List Char) : List (List Char) := (splitSlashAux cs []).reverse

/-- `c.to_digit(10)`. -/
def toDigit10 (c : Char) : Option Nat :=
  if 48 ≤ c.toNat ∧ c.toNat ≤ 57 then some (c.toNat - 48) else none

def foldE {α β : Type} (f : α → β → Except String α) : α → List β → Except String α
  | a, [] => .ok a
  | a, b :: rest =>
    match f a b with
    | .ok a' => foldE f a' rest
    | .error e => .error e

/-- Placement of one letter whose arm applies and clears `is_promoted`
(`p l n s b r` and upper-case forms): category offset `8 * is_promoted`,
square advanced by one.  The bound check models the `mailbox[sq]` index
panic on a square past the board. -/
def placePromotable (st : Position) (i : Nat) (isP : Bool) (cat side : Nat) :
    Except String (Position × Nat × Bool) :=
  if i < 81 then
    .ok (st.add_piece i ⟨cat + 8 * (if isP then 1 else 0), side⟩, i + 1, false)
  else .error "square index out of bounds"

/-- Placement of a gold or king letter: no promotion offset, and the Rust arm
leaves `is_promoted` untouched (the `debug_assert` is a no-op in release). -/
def placePlain (st : Position) (i : Nat) (isP : Bool) (cat side : Nat) :
    Except String (Position × Nat × Bool) :=
  if i < 81 then .ok (st.add_piece i ⟨cat, side⟩, i + 1, isP)
  else .error "square index out of bounds"

def parsePlacementChar (acc : Position × Nat × Bool) (c : Char) :
    Except String (Position × Nat × Bool) :=
  let st := acc.1
  let i := acc.2.1
  let isP := acc.2.2
  match c with
  | '+' => .ok (st, i, true)
  | 'p' => placePromotable st i isP 0 1
  | 'P' => placePromotable st i isP 0 0
  | 'l' => placePromotable st i isP 1 1
  | 'L' => placePromotable st i isP 1 0
  | 'n' => placePromotable st i isP 2 1
  | 'N' => placePromotable st i isP 2 0
  | 's' => placePromotable st i isP 3 1
  | 'S' => placePromotable st i isP 3 0
  | 'g' => placePlain st i isP 6 1
  | 'G' => placePlain st i isP 6 0
  | 'b' => placePromotable st i isP 4 1
  | 'B' => placePromotable st i isP 4 0
  | 'r' => placePromotable st i isP 5 1
  | 'R' => placePromotable st i isP 5 0
  | 'k' => placePlain st i isP 7 1
  | 'K' => placePlain st i isP 7 0
  | _ =>
    match toDigit10 c with
    | some d => .ok (st, i + d, isP)
    | none => .error "invalid character in fen"

/-- One placement group: `is_promoted` starts false at each group, the square
index threads through. -/
def parseRank (st : Position) (i : Nat) (rank : List Char) :
    Except String (Position × Nat) :=
  match foldE parsePlacementChar (st, i, false) rank with
  | .ok acc => .ok (acc.1, acc.2.1)
  | .error e => .error e

def parsePlacement (ranks : List (List Char)) (st : Position) (i : Nat) :
    Except String Position :=
  match ranks with
  | [] => .ok st
  | r :: rest =>
    match parseRank st i r with
    | .ok acc => parsePlacement rest acc.1 acc.2
    | .error e => .error e

/-- `state.hands[side].set(piece, count)`. -/
def Position.setHand (pos : Position) (side cat count : Nat) : Position :=
  { pos with hands := pos.hands.set side (handSet (pos.hands.getD side emptyHand) cat count) }

def parseHandChar (acc : Position × Nat) (c : Char) : Except String (Position × Nat) :=
  let st := acc.1
  let count := acc.2
  match c with
  | 'p' => .ok (st.setHand 1 0 count, 1)
  | 'P' => .ok (st.setHand 0 0 count, 1)
  | 'l' => .ok (st.setHand 1 1 count, 1)
  | 'L' => .ok (st.setHand 0 1 count, 1)
  | 'n' => .ok (st.setHand 1 2 count, 1)
  | 'N' => .ok (st.setHand 0 2 count, 1)
  | 's' => .ok (st.setHand 1 3 count, 1)
  | 'S' => .ok (st.setHand 0 3 count, 1)
  | 'g' => .ok (st.setHand 1 6 count, 1)
  | 'G' => .ok (st.setHand 0 6 count, 1)
  | 'b' => .ok (st.setHand 1 4 count, 1)
  | 'B' => .ok (st.setHand 0 4 count, 1)
  | 'r' => .ok (st.setHand 1 5 count, 1)
  | 'R' => .ok (st.setHand 0 5 count, 1)
  | 'k' => .ok (st.setHand 1 7 count, 1)
  | 'K' => .ok (st.setHand 0 7 count, 1)
  | _ =>
    match toDigit10 c with
    | some d => .ok (st, d)
    | none => .error "invalid character in fen"

def parseHand (tok : List Char) (st : Position) : Except String Position :=
  if tok = ['-'] then .ok st
  else
    match foldE parseHandChar (st, 1) tok with
    | .ok acc => .ok acc.1
    | .error e => .error e

def parseDigitsAux : List Char → Nat → Option Nat
  | [], acc => some acc
  | c :: rest, acc =>
    match toDigit10 c with
    | some d => parseDigitsAux rest (acc * 10 + d)
    | none => none

/-- `token.parse::<i16>()`: optional sign, decimal digits, i16 range. -/
def parseI16 (tok : List Char) : Option Int :=
  match tok with
  | [] => none
  | '-' :: rest =>
    if rest.isEmpty then none
    else
      match parseDigitsAux rest 0 with
      | some v => if v ≤ 32768 then some (-(v : Int)) else none
      | none => none
  | '+' :: rest =>
    if rest.isEmpty then none
    else
      match parseDigitsAux rest 0 with
      | some v => if v ≤ 32767 then some (v : Int) else none
      | none => none
  | _ =>
    match parseDigitsAux tok 0 with
    | some v => if v ≤ 32767 then some (v : Int) else none
    | none => none

/-- `self.stm = u8::from(token == "w")`. -/
def stmOf (tok : List Char) : Nat := if tok = ['w'] then 1 else 0

/-- `Board::load_fen`.  The result pairs the board (success state, or the
state as mutated at the panic point) with `none` on success and an error on a
parse fault. -/
def Board.load_fen (b : Board) (fen : String) : Board × Option String :=
  match splitWs fen.toList with
  | [] => (b, some "no position?")
  | tok0 :: rest0 =>
    match parsePlacement (rsplitSlash tok0) defaultPosition 0 with
    | .error e => (b, some e)
    | .ok st0 =>
      match rest0 with
      | [] => (b, some "no ctm?")
      | tok1 :: rest1 =>
        match rest1 with
        | [] => ({ b with stm := stmOf tok1 }, some "no hand")
        | tok2 :: rest2 =>
          match parseHand tok2 st0 with
          | .error e => ({ b with stm := stmOf tok1 }, some e)
          | .ok st1 =>
            match rest2 with
            | [] => ({ b with stm := stmOf tok1, states := b.states ++ [st1] }, none)
            | tok3 :: _ =>
              match parseI16 tok3 with
              | none => ({ b with stm := stmOf tok1 }, some "ply parse fault")
              | some n =>
                ({ b with stm := stmOf tok1, ply := n, states := b.states ++ [st1] }, none)

/-! ## C5–C8: load_fen behaviour -/

/-- Hand-parse result of the single hand entry `K`: a held sente king. -/
def stK : Position := defaultPosition.setHand 0 7 1

/-- C5 counterexample: loading `"9/9/9/9/9/9/9/9/9 b K"` does not abort —
the parse succeeds and a king (category 7) with count 1 is recorded in the
sente hand, refuting both halves of the claim. -/
theorem c5_counterexample :
    (defaultBoard.load_fen "9/9/9/9/9/9/9/9/9 b K").2 = none ∧
    (((defaultBoard.load_fen "9/9/9/9/9/9/9/9/9 b K").1.states.getLastD
        defaultPosition).hands.getD 0 emptyHand).getD 7 0 = 1 := by
  decide

/-- The sixteen piece letters of the hand-field character dispatch
(`src/board.rs:347`–`460`): every base category of both sides, the king
included. -/
def handLetters : List Char :=
  ['p', 'P', 'l', 'L', 'n', 'N', 's', 'S', 'g', 'G', 'b', 'B', 'r', 'R', 'k', 'K']

theorem parseHandChar_digit (acc : Position × Nat) (c : Char) (d : Nat)
    (h : toDigit10 c = some d) : parseHandChar acc c = .ok (acc.1, d) := by
  have hrange : 48 ≤ c.toNat ∧ c.toNat ≤ 57 := by
    unfold toDigit10 at h
    split at h
    · next hcond => exact ⟨hcond.1, hcond.2⟩
    · exact Option.noConfusion h
  unfold parseHandChar
  split <;>
    first
      | (exact absurd hrange (by decide))
      | (rw [h])

theorem parseHandChar_letter (acc : Position × Nat) (c : Char) (h : c ∈ handLetters) :
    ∃ acc', parseHandChar acc c = .ok acc' := by
  simp only [handLetters, List.mem_cons, List.not_mem_nil, or_false] at h
  rcases h with rfl | rfl | rfl | rfl | rfl | rfl | rfl | rfl |
    rfl | rfl | rfl | rfl | rfl | rfl | rfl | rfl <;>
    exact ⟨_, rfl⟩

theorem parseHandChar_ok (acc : Position × Nat) (c : Char)
    (h : c ∈ handLetters ∨ (toDigit10 c).isSome = true) :
    ∃ acc', parseHandChar acc c = .ok acc' := by
  cases h with
  | inl hl => exact parseHandChar_letter acc c hl
  | inr hd =>
    obtain ⟨d, hd'⟩ := Option.isSome_iff_exists.mp hd
    exact ⟨(acc.1, d), parseHandChar_digit acc c d hd'⟩

theorem foldE_hand_ok (tok : List Char) :
    ∀ acc : Position × Nat, (∀ c ∈ tok, c ∈ handLetters ∨ (toDigit10 c).isSome = true) →
      ∃ acc', foldE parseHandChar acc tok = .ok acc' := by
  induction tok with
  | nil => intro acc _; exact ⟨acc, rfl⟩
  | cons c rest ih =>
    intro acc hall
    obtain ⟨acc1, h1⟩ := parseHandChar_ok acc c (hall c (List.mem_cons_self c rest))
    obtain ⟨acc', h2⟩ := ih acc1 (fun x hx => hall x (List.mem_cons_of_mem c hx))
    refine ⟨acc', ?_⟩
    unfold foldE
    rw [h1]
    exact h2

theorem parseHand_ok (tok : List Char) (st : Position)
    (h : ∀ c ∈ tok, c ∈ handLetters ∨ (toDigit10 c).isSome = true) :
    ∃ st', parseHand tok st = .ok st' := by
  unfold parseHand
  by_cases hdash : tok = ['-']
  · rw [if_pos hdash]
    exact ⟨st, rfl⟩
  · rw [if_neg hdash]
    obtain ⟨acc', hfold⟩ := foldE_hand_ok tok (st, 1) h
    rw [hfold]
    exact ⟨acc'.1, rfl⟩

theorem parseHand_error (tok : List Char) (st : Position) (e : String)
    (herr : parseHand tok st = .error e) :
    ∃ c ∈ tok, c ∉ handLetters ∧ toDigit10 c = none := by
  by_contra hcon
  push_neg at hcon
  have hall : ∀ c ∈ tok, c ∈ handLetters ∨ (toDigit10 c).isSome = true := by
    intro c hc
    by_cases hl : c ∈ handLetters
    · exact Or.inl hl
    · right
      have hne := hcon c hc hl
      cases hopt : toDigit10 c with
      | none => exact absurd hopt hne
      | some d => rfl
  obtain ⟨st', hok⟩ := parseHand_ok tok st hall
  rw [hok] at herr
  exact Except.noConfusion herr

/-- C5 amended: a king letter in the hand field does not abort parsing.  For
every intermediate parse state and every pending count, the `K` arm records a
king (category 7) with the pending count in the sente hand and the `k` arm
records it in the gote hand, each succeeding like any other piece-letter arm;
hand parsing aborts only on characters that are neither piece letters nor
decimal digits; and for every starting board, loading a position string whose
hand field is `K` succeeds end to end with a king of count 1 recorded in the
first side's hand. -/
theorem c5_amended :
    (∀ (st : Position) (count : Nat),
      parseHandChar (st, count) 'K' = .ok (st.setHand 0 7 count, 1) ∧
      parseHandChar (st, count) 'k' = .ok (st.setHand 1 7 count, 1)) ∧
    (∀ (tok : List Char) (st : Position) (e : String),
      parseHand tok st = .error e →
        ∃ c ∈ tok, c ∉ handLetters ∧ toDigit10 c = none) ∧
    (∀ b : Board,
      (b.load_fen "9/9/9/9/9/9/9/9/9 b K").2 = none ∧
      (((b.load_fen "9/9/9/9/9/9/9/9/9 b K").1.states.getLastD
          defaultPosition).hands.getD 0 emptyHand).getD 7 0 = 1) := by
  refine ⟨?_, ?_, ?_⟩
  · intro st count
    exact ⟨rfl, rfl⟩
  · exact fun tok st e herr => parseHand_error tok st e herr
  · intro b
    constructor
    · rfl
    · show (((b.states ++ [stK]).getLastD defaultPosition).hands.getD 0 emptyHand).getD 7 0 = 1
      rw [getLastD_append_single]
      decide

/-- C5 witness: the aborts-only-on-invalid-characters clause instantiated at
the hand token `x`, whose parse really aborts. -/
theorem c5_witness :
    ∃ c ∈ (['x'] : List Char), c ∉ handLetters ∧ toDigit10 c = none :=
  c5_amended.2.1 ['x'] defaultPosition "invalid character in fen" rfl

/-- C6: evaluating `load_fen` at the failing input — a hand field `18P`
records 8 sente pawns, not 18: each digit character overwrites the pending
count, so only the last digit of a multi-digit count survives. -/
theorem c6_eval :
    (defaultBoard.load_fen "9/9/9/9/9/9/9/9/9 b 18P").2 = none ∧
    (((defaultBoard.load_fen "9/9/9/9/9/9/9/9/9 b 18P").1.states.getLastD
        defaultPosition).hands.getD 0 emptyHand).getD 0 0 = 8 := by
  decide

/-- On every outcome of `load_fen`, either the parse succeeded, or the
history and ply counter are exactly the caller's. -/
theorem load_fen_partial (b : Board) (fen : String) :
    (b.load_fen fen).2 = none ∨
    ((b.load_fen fen).1.states = b.states ∧ (b.load_fen fen).1.ply = b.ply) := by
  unfold Board.load_fen
  cases splitWs fen.toList with
  | nil => exact Or.inr ⟨rfl, rfl⟩
  | cons tok0 rest0 =>
    dsimp only
    cases parsePlacement (rsplitSlash tok0) defaultPosition 0 with
    | error e => exact Or.inr ⟨rfl, rfl⟩
    | ok st0 =>
      dsimp only
      cases rest0 with
      | nil => exact Or.inr ⟨rfl, rfl⟩
      | cons tok1 rest1 =>
        dsimp only
        cases rest1 with
        | nil => exact Or.inr ⟨rfl, rfl⟩
        | cons tok2 rest2 =>
          dsimp only
          cases parseHand tok2 st0 with
          | error e => exact Or.inr ⟨rfl, rfl⟩
          | ok st1 =>
            dsimp only
            cases rest2 with
            | nil => exact Or.inl rfl
            | cons tok3 rest3 =>
              dsimp only
              cases parseI16 tok3 with
              | none => exact Or.inr ⟨rfl, rfl⟩
              | some n => exact Or.inl rfl

/-- C7 counterexample: loading `"9/9/9/9/9/9/9/9/9 w x"` aborts in the hand
field, yet the side-to-move flag has already been overwritten to 1 (the board
started at 0) — partial state is published, refuting the claim for the
side-to-move flag. -/
theorem c7_counterexample :
    (defaultBoard.load_fen "9/9/9/9/9/9/9/9/9 w x").2.isSome = true ∧
    (defaultBoard.load_fen "9/9/9/9/9/9/9/9/9 w x").1.stm = 1 ∧
    defaultBoard.stm = 0 := by
  decide

/-- C7 amended: if `load_fen` is given malformed text, parsing aborts and the
Board's history and ply counter are left exactly as they were before the
call; the side-to-move flag, however, may already have been overwritten (it
is assigned from the second token before the hand and ply fields are
parsed). -/
theorem c7_amended (b : Board) (fen : String) (h : (b.load_fen fen).2.isSome) :
    (b.load_fen fen).1.states = b.states ∧ (b.load_fen fen).1.ply = b.ply := by
  cases load_fen_partial b fen with
  | inl hnone => rw [hnone] at h; exact Bool.noConfusion h
  | inr hsame => exact hsame

/-- C7 witness: the amended no-partial-state property at the malformed input
`"x"`. -/
theorem c7_witness :
    (defaultBoard.load_fen "x").2.isSome = true ∧
    ((defaultBoard.load_fen "x").1.states = defaultBoard.states ∧
     (defaultBoard.load_fen "x").1.ply = defaultBoard.ply) :=
  ⟨by decide, c7_amended defaultBoard "x" (by decide)⟩

/-- C8 counterexample: the default Board's history holds 256 positions
(`vec![Position::default(); 256]` builds a vector of length 256), not
exactly one. -/
theorem c8_counterexample :
    defaultBoard.states.length = 256 ∧ defaultBoard.states.length ≠ 1 := by
  have h : defaultBoard.states = List.replicate 256 defaultPosition := rfl
  rw [h, List.length_replicate]
  exact ⟨rfl, by norm_num⟩

/-- Every successful `load_fen` appends exactly one position to the history,
and that position becomes the current snapshot. -/
theorem load_fen_appends (b : Board) (fen : String) (h : (b.load_fen fen).2 = none) :
    ∃ st, (b.load_fen fen).1.states = b.states ++ [st] ∧
      (b.load_fen fen).1.current_state = st := by
  revert h
  unfold Board.load_fen
  cases splitWs fen.toList with
  | nil => intro h; exact Option.noConfusion h
  | cons tok0 rest0 =>
    dsimp only
    cases parsePlacement (rsplitSlash tok0) defaultPosition 0 with
    | error e => intro h; exact Option.noConfusion h
    | ok st0 =>
      dsimp only
      cases rest0 with
      | nil => intro h; exact Option.noConfusion h
      | cons tok1 rest1 =>
        dsimp only
        cases rest1 with
        | nil => intro h; exact Option.noConfusion h
        | cons tok2 rest2 =>
          dsimp only
          cases parseHand tok2 st0 with
          | error e => intro h; exact Option.noConfusion h
          | ok st1 =>
            dsimp only
            cases rest2 with
            | nil =>
              intro _
              refine ⟨st1, rfl, ?_⟩
              show (b.states ++ [st1]).getLastD defaultPosition = st1
              exact getLastD_append_single _ _ _
            | cons tok3 rest3 =>
              dsimp only
              cases parseI16 tok3 with
              | none => intro h; exact Option.noConfusion h
              | some n =>
                intro _
                refine ⟨st1, rfl, ?_⟩
                show (b.states ++ [st1]).getLastD defaultPosition = st1
                exact getLastD_append_single _ _ _

/-- C8 amended: a default-constructed Board has a history of 256 empty
Positions (the Rust initialiser builds a length-256 vector, not a capacity
reservation holding a single entry; the last entry is the current snapshot),
and every successful `load_fen` appends exactly one freshly built Position to
the top of the history, which then becomes the current snapshot. -/
theorem c8_amended :
    defaultBoard.states = List.replicate 256 defaultPosition ∧
    (∀ p, p ∈ defaultBoard.states → p = defaultPosition) ∧
    (∀ (b : Board) (fen : String), (b.load_fen fen).2 = none →
      ∃ st, (b.load_fen fen).1.states = b.states ++ [st] ∧
        (b.load_fen fen).1.current_state = st) := by
  refine ⟨rfl, ?_, ?_⟩
  · intro p hp
    exact List.eq_of_mem_replicate hp
  · intro b fen h
    exact load_fen_appends b fen h

/-- C8 witness: the amended append property at a successful concrete load. -/
theorem c8_witness :
    ∃ st, (defaultBoard.load_fen "9/9/9/9/9/9/9/9/9 b -").1.states =
        defaultBoard.states ++ [st] ∧
      (defaultBoard.load_fen "9/9/9/9/9/9/9/9/9 b -").1.current_state = st :=
  c8_amended.2.2 defaultBoard "9/9/9/9/9/9/9/9/9 b -" (by decide)

/-! ## C1 and C2: the pawn-drop restriction masks for the first side

For `stm == 0` the pawn-drop mask is `(!our_pawns.file_fill()) >> 9`: the
complement is unmasked, so bits 81–89 (always set) shift down into rank 8
(squares 72–80).  Consequently a first-side pawn drop is never excluded on
rank 8 — neither by the double-pawn file restriction nor by the back-rank
restriction that lances get via the masked `FULL >> 9`. -/

/-- Position with a sente pawn on square 0 (file 0) and one pawn in the sente
hand. -/
def nifuPos : Position :=
  { (defaultPosition.add_piece 0 ⟨0, 0⟩) with hands := [handSet emptyHand 0 1, emptyHand] }

def nifuBoard : Board := { states := [nifuPos], stm := 0, ply := 0 }

/-- C1: evaluation at the failing input.  The side to move (sente) has an
unpromoted pawn on square 0 (file 0) and holds a pawn, yet `get_actions`
emits a pawn drop onto square 72 — the rank-8 square of the same file 0 —
because the unmasked complement leaks set bits into rank 8 after the `>> 9`
shift.  (Drops onto the other file-0 squares are correctly excluded.) -/
theorem c1_eval :
    nifuPos.piece_on_square 0 = ⟨0, 0⟩ ∧
    (nifuPos.hands.getD 0 emptyHand).getD 0 0 = 1 ∧
    (72 : Nat) % 9 = 0 % 9 ∧
    Action.drop ⟨0, 0⟩ 72 ∈ nifuBoard.get_actions ∧
    Action.drop ⟨0, 0⟩ 9 ∉ nifuBoard.get_actions := by
  decide

/-- Position with empty board and one pawn in the sente hand. -/
def pawnHandPos : Position :=
  { defaultPosition with hands := [handSet emptyHand 0 1, emptyHand] }

def pawnHandBoard : Board := { states := [pawnHandPos], stm := 0, ply := 0 }

/-- C2: evaluation at the failing input.  With an empty board and a pawn in
the sente hand, `get_actions` emits pawn drops onto every rank-8 square
(72–80): for the first side the pawn-drop mask excludes no rank at all,
whereas the claim requires exactly rank 8 to be excluded.  (Lance and knight
drops use the masked `FULL` shifts and do exclude their back ranks.) -/
theorem c2_eval :
    Action.drop ⟨0, 0⟩ 72 ∈ pawnHandBoard.get_actions ∧
    Action.drop ⟨0, 0⟩ 73 ∈ pawnHandBoard.get_actions ∧
    Action.drop ⟨0, 0⟩ 74 ∈ pawnHandBoard.get_actions ∧
    Action.drop ⟨0, 0⟩ 75 ∈ pawnHandBoard.get_actions ∧
    Action.drop ⟨0, 0⟩ 76 ∈ pawnHandBoard.get_actions ∧
    Action.drop ⟨0, 0⟩ 77 ∈ pawnHandBoard.get_actions ∧
    Action.drop ⟨0, 0⟩ 78 ∈ pawnHandBoard.get_actions ∧
    Action.drop ⟨0, 0⟩ 79 ∈ pawnHandBoard.get_actions ∧
    Action.drop ⟨0, 0⟩ 80 ∈ pawnHandBoard.get_actions := by
  decide

/-! ## C10: the complement operator is the raw 128-bit complement -/

/-- C10: for every bitboard whose members all lie in the 81-square domain,
the `Not` implementation returns the raw 128-bit complement: below bit 81 it
flips every bit, every bit index from 81 to 127 is set, and the result
exceeds the full-board mask, so it is not masked to the board domain and a
caller must intersect it with `FULL` before treating it as a set of board
squares. -/
theorem c10_raw_complement (b : Nat) (hb : b ≤ bbFULL) :
    (∀ i, i < 81 → (bbNot b).testBit i = !(b.testBit i)) ∧
    (∀ i, i < 128 → 81 ≤ i → (bbNot b).testBit i = true) ∧
    bbFULL < bbNot b := by
  have hb81 : b < 2 ^ 81 := lt_of_le_of_lt hb (by norm_num [bbFULL])
  have hbit : ∀ i, (bbNot b).testBit i = (b.testBit i).xor (decide (i < 128)) := by
    intro i
    show ((b ^^^ (2 ^ 128 - 1)).testBit i) = _
    rw [Nat.testBit_xor, Nat.testBit_two_pow_sub_one]
  refine ⟨?_, ?_, ?_⟩
  · intro i hi
    rw [hbit i, decide_eq_true (by omega : i < 128)]
    simp
  · intro i hi hi81
    rw [hbit i, decide_eq_true hi, testBit_false_of_lt_pow81 hb81 hi81]
    rfl
  · have h127 : (bbNot b).testBit 127 = true := by
      rw [hbit 127, decide_eq_true (by norm_num : (127 : Nat) < 128),
        testBit_false_of_lt_pow81 hb81 (by norm_num)]
      rfl
    have := Nat.testBit_implies_ge h127
    calc bbFULL < 2 ^ 127 := by norm_num [bbFULL]
      _ ≤ bbNot b := this

/-- C10 witness: the raw-complement characterisation instantiated at the
empty bitboard. -/
theorem c10_witness :
    (∀ i, i < 81 → (bbNot 0).testBit i = !((0 : Nat).testBit i)) ∧
    (∀ i, i < 128 → 81 ≤ i → (bbNot 0).testBit i = true) ∧
    bbFULL < bbNot 0 :=
  c10_raw_complement 0 (by decide)

end Shogi

